/-
Verification of the evolutionary-algorithm engine in `ga.py`
(repository `exelixi`).

Shallow embedding conventions:
* Python floats are modelled as exact rationals (`ℚ`); the fitness
  formula and histogram arithmetic carry over verbatim.
* The SHA-224 fingerprint of the canonical JSON serialization of a
  feature set is modelled as the canonical feature list itself: the
  only property the engine relies on is that the fingerprint is a
  deterministic, collision-free function of the canonical feature set.
* The external `bloomfilter` library (an approximate-membership filter
  whose contract promises no false negatives) is modelled by its
  membership contract as an exact set of keys; false positives are
  abstracted away, false negatives are impossible by construction.
* Python `random` calls (`randint`, `random`, `sample`) are threaded
  through the definitions as explicit oracle arguments.
* CPython reference semantics matter in one place: in
  `Individual.mutate`, `mutated_feature_set = self._feature_set` binds
  the *same* list object, so the subsequent item assignment mutates the
  stored feature set of the caller in place.  The embedding reproduces this
  by updating the store entry that holds the caller.
-/
import Mathlib

set_option maxHeartbeats 1000000
set_option maxRecDepth 100000

namespace Exelixi

/-- A fingerprint key (`Individual.get_unique_key`): the SHA-224 digest of
the JSON dump of the feature set, modelled as the canonical feature list. -/
abbrev Key := List ℤ

/-- Embeds `Individual.__init__` plus `populate`: generation tag, feature set,
derived key, and (initially uncomputed) fitness. -/
structure Individual where
  gen : ℤ
  feature_set : List ℤ
  key : Key
  fitness : Option ℚ
  deriving DecidableEq, Repr, Inhabited

/-- Embeds `Individual.get_unique_key` applied to a feature set: deterministic
content fingerprint (see the module comment for the SHA-224 idealisation). -/
def get_unique_key (feature_set : List ℤ) : Key := feature_set

/-- Embeds the `Individual.target` class attribute. -/
def target : ℚ := 231

/-- Embeds Python `sorted(...)` on integer lists (ascending). -/
def sortAsc (l : List ℤ) : List ℤ := l.insertionSort (· ≤ ·)

/-- The constructor pattern `indiv = cls(); indiv.populate(gen, fs)`:
a fresh object with gen, feature set and key bound, fitness still `None`. -/
def mk_indiv (gen : ℤ) (feature_set : List ℤ) : Individual :=
  { gen := gen, feature_set := feature_set, key := get_unique_key feature_set,
    fitness := none }

/-- Embeds `Individual.calc_fitness`: sets
`fitness = 1.0 - abs(sum(feature_set) - target) / float(target)`. -/
def calc_fitness (i : Individual) : Individual :=
  { i with fitness := some (1 - ((|i.feature_set.sum - 231| : ℤ) : ℚ) / target) }

/-- Read a fitness slot for histogram arithmetic; live members always hold a
computed fitness (`reify` computes it before insertion). -/
def fitQ (i : Individual) : ℚ := i.fitness.getD 0

/-- Python 2 comparison `fitness > cutoff` where `fitness` may be `None`
(`None` compares below every number in Python 2). -/
def pyGT (f : Option ℚ) (c : ℚ) : Bool :=
  match f with
  | none => false
  | some q => decide (c < q)

/-- Python 2 `round(x, g)`: round to `g` decimal places, halves away from
zero, modelled exactly on ℚ. -/
def pyRound (g : ℕ) (q : ℚ) : ℚ :=
  let m : ℚ := (10 : ℚ) ^ g
  if 0 ≤ q then (⌊q * m + 1/2⌋ : ℚ) / m else -((⌊-q * m + 1/2⌋ : ℚ) / m)

/-- Embeds the midpoint `len(self._feature_set) / 2` of `Individual.breed`
(Python 2 integer floor division). -/
def half (i : Individual) : ℕ := i.feature_set.length / 2

/-- The population state: configuration plus the exact store
(`_uniq_dht`, an insertion-ordered association list keyed by fingerprint)
and the membership filter (`_bf`, see module comment). -/
structure Population where
  n_pop : ℕ
  term_limit : ℚ
  hist_granularity : ℕ
  uniq_dht : List (Key × Individual)
  bf : List Key
  deriving DecidableEq, Repr

/-- A freshly constructed `Population`: empty store and empty filter
(`Population.__init__` defaults: `n_pop=11, term_limit=0.0,
hist_granularity=3`). -/
def Population.init (n_pop : ℕ) (term_limit : ℚ) (hist_granularity : ℕ) :
    Population :=
  { n_pop := n_pop, term_limit := term_limit,
    hist_granularity := hist_granularity, uniq_dht := [], bf := [] }

/-- Python dict assignment `d[k] = v`: replace the value at an existing key,
otherwise append a new entry. -/
def assocInsert (l : List (Key × Individual)) (k : Key) (v : Individual) :
    List (Key × Individual) :=
  if l.any (fun e => e.1 = k) then
    l.map (fun e => if e.1 = k then (k, v) else e)
  else
    l ++ [(k, v)]

/-- CPython aliasing effect of mutating a list object held by the store:
replace the value at key `k` when `k` is present, leave the store unchanged
otherwise. -/
def assocSet (l : List (Key × Individual)) (k : Key) (v : Individual) :
    List (Key × Individual) :=
  l.map (fun e => if e.1 = k then (k, v) else e)

/-- Embeds `Population.reify`: the admission gate.  If the filter does not
report the key as seen, record the key in the filter, compute the fitness of
the candidate
(in place, in Python), store it in `_uniq_dht`, and return `True`; otherwise
return `False` with no side effect.  The third component is the candidate
object as the call leaves it, making the in-place fitness write observable. -/
def reify (pop : Population) (indiv : Individual) :
    Population × Bool × Individual :=
  if indiv.key ∈ pop.bf then
    (pop, false, indiv)
  else
    let indiv' := calc_fitness indiv
    ({ pop with bf := indiv.key :: pop.bf,
                uniq_dht := assocInsert pop.uniq_dht indiv.key indiv' },
     true, indiv')

/-- Embeds `Population.evict`: delete the store entry at `indiv.key` when
present
(the durable-storage path it computes is dead code in this scope). -/
def evict (pop : Population) (indiv : Individual) : Population :=
  { pop with uniq_dht := pop.uniq_dht.eraseP (fun e => e.1 = indiv.key) }

/-- Embeds `Population.get_part_hist`: round the fitness of every member to
`hist_granularity` decimal places, tally counts per rounded bin, and sort
the `(bin, count)` pairs in descending order.  (Sorting the distinct bins
descending and pairing each with its count is exactly Python
`sorted(Counter(...).items(), reverse=True)`, since the bins are distinct.) -/
def get_part_hist (pop : Population) : List (ℚ × ℕ) :=
  let fits := pop.uniq_dht.map (fun e => pyRound pop.hist_granularity (fitQ e.2))
  let bins := fits.dedup.insertionSort (fun a b => b ≤ a)
  bins.map (fun b => (b, fits.count b))

/-- The loop of `Population.get_fitness_cutoff`, with the Python loop
variable semantics made explicit: the loop variable `bin` is rebound at the
top of each iteration, *before* the `break_next` test, and retains its last
binding when the loop ends; `last` carries that binding (`none` = never
bound, i.e. the `return bin` raises `NameError`). -/
def cutoffGo (n_pop : ℕ) (selection_rate : ℚ) :
    List (ℚ × ℕ) → ℕ → Bool → Option ℚ → Option ℚ
  | [], _, _, last => last
  | (bin, count) :: rest, s, break_next, _ =>
    if break_next then some bin
    else
      let s' := s + count
      cutoffGo n_pop selection_rate rest s'
        (decide (selection_rate ≤ (s' : ℚ) / (n_pop : ℚ))) (some bin)

/-- Embeds `Population.get_fitness_cutoff`: walk the descending histogram
accumulating counts, with `percentile = sum / float(n_pop)` and
`break_next = percentile >= selection_rate`. -/
def get_fitness_cutoff (pop : Population) (selection_rate : ℚ) : Option ℚ :=
  cutoffGo pop.n_pop selection_rate (get_part_hist pop) 0 false none

/-- Embeds `Population.test_termination`: mean-squared fitness error over the
histogram against `term_limit` (the progress `print` is I/O only and is not
modelled). -/
def test_termination (pop : Population) (_current_gen : ℤ) : Bool :=
  let hist := get_part_hist pop
  let mse := (hist.map (fun bc => (bc.2 : ℚ) * (1 - bc.1) ^ 2)).sum / (pop.n_pop : ℚ)
  decide (mse ≤ pop.term_limit)

/-- Embeds `Individual.mutate`: pick a position and a replacement value (both
random, here oracle arguments).  NOTE the CPython aliasing:
`mutated_feature_set = self._feature_set` binds the same list object, so the
item assignment rewrites the stored feature set of the caller in place — the
store entry holding `self` sees the change (`assocSet`), while `self.key`
keeps its stale fingerprint.  A new sorted mutant is then constructed and
reified; only on success is the original evicted.  Returns the population
and the caller as the call leaves it. -/
def mutate (pop : Population) (self : Individual) (gen : ℤ)
    (pos : ℕ) (newVal : ℤ) : Population × Individual :=
  let mutated := self.feature_set.set pos newVal
  let self' := { self with feature_set := mutated }
  let pop1 := { pop with uniq_dht := assocSet pop.uniq_dht self.key self' }
  let mutant := mk_indiv gen (sortAsc mutated)
  let r := reify pop1 mutant
  (if r.2.1 then evict r.1 self' else r.1, self')

/-- Embeds `Individual.breed`: single-point crossover — the tail of the caller
from the midpoint (floor division, remainder included) concatenated with the
head of the mate up to the midpoint, re-sorted, built into a new Individual
and reified.  No eviction. -/
def breed (pop : Population) (self : Individual) (gen : ℤ)
    (mate : Individual) : Population :=
  let child := mk_indiv gen
    (sortAsc (self.feature_set.drop (half self) ++ mate.feature_set.take (half self)))
  (reify pop child).1

/-- The random draws consumed by one `_boost_diversity` call: the
`random()` coin, and the `randint` position and replacement value of
`mutate`. -/
structure BoostRng where
  coin : ℚ
  pos : ℕ
  newVal : ℤ

/-- Embeds `Population._boost_diversity`: with probability `mutation_rate`
mutate
the individual, otherwise evict it. -/
def boost_diversity (pop : Population) (current_gen : ℤ) (indiv : Individual)
    (mutation_rate : ℚ) (r : BoostRng) : Population :=
  if r.coin < mutation_rate then (mutate pop indiv current_gen r.pos r.newVal).1
  else evict pop indiv

/-- Embeds `Population._select_parents`: partition the current members by
`fitness > fitness_cutoff` (Python 2 `None` compares below any number), run
the diversity pass over the poor-fit list (computed before the pass), and
return the *entire* remaining store contents as the parent pool. -/
def select_parents (pop : Population) (current_gen : ℤ)
    (fitness_cutoff : ℚ) (mutation_rate : ℚ) (rng : ℕ → BoostRng) :
    Population × List Individual :=
  let vals := pop.uniq_dht.map Prod.snd
  let poor_fit := vals.filter (fun x => ¬ pyGT x.fitness fitness_cutoff)
  let pop' := poor_fit.enum.foldl
    (fun p ki => boost_diversity p current_gen ki.2 mutation_rate (rng ki.1)) pop
  (pop', pop'.uniq_dht.map Prod.snd)

/-- The list comprehension
`[sample(parents, 2) for _ in xrange(n_pop - len(parents))]`, with the
two chosen positions of the `k`-th `sample` call supplied by the oracle
`rngS`. -/
def breeding_pairs (n_pop : ℕ) (parents : List Individual)
    (rngS : ℕ → ℕ × ℕ) : List (Individual × Individual) :=
  (List.range (n_pop - parents.length)).map
    (fun k => (parents.getD (rngS k).1 default, parents.getD (rngS k).2 default))

/-- Embeds `Population.next_generation`: run the selection/diversity pass and
then
breed each sampled pair in order.  The pair list is fully evaluated before
the breeding loop runs, exactly as the Python list comprehension is. -/
def next_generation (pop : Population) (current_gen : ℤ)
    (fitness_cutoff : ℚ) (mutation_rate : ℚ) (rngB : ℕ → BoostRng)
    (rngS : ℕ → ℕ × ℕ) : Population :=
  let sp := select_parents pop current_gen fitness_cutoff mutation_rate rngB
  (breeding_pairs sp.1.n_pop sp.2 rngS).foldl
    (fun p fm => breed p fm.1 current_gen fm.2) sp.1

/-- Spec-side reading of the claim about `get_fitness_cutoff` (stated, not
what the code does): return the bin at which the cumulative fraction of the
population, accumulated over the descending histogram, first reaches or
exceeds the selection rate. -/
def cutoffSpecClaimed (n_pop : ℕ) (rate : ℚ) :
    List (ℚ × ℕ) → ℕ → Option ℚ
  | [], _ => none
  | (bin, count) :: rest, s =>
    if rate ≤ ((s + count : ℕ) : ℚ) / (n_pop : ℚ) then some bin
    else cutoffSpecClaimed n_pop rate rest (s + count)

/-- Spec-side reading of the amended claim about `get_fitness_cutoff`:
return the bin immediately following (in the descending histogram) the
first bin at which the cumulative count divided by `n_pop` reaches or
exceeds the selection rate; when that bin is the last bin, or when no bin
reaches the threshold, return the last bin.  (On the last remaining bin the
two fallback cases coincide, so that equation returns the bin outright.) -/
def cutoffSpecAmended (n_pop : ℕ) (rate : ℚ) :
    List (ℚ × ℕ) → ℕ → Option ℚ
  | [], _ => none
  | [(bin, _)], _ => some bin
  | (_, count) :: (b2, c2) :: t, s =>
    if rate ≤ ((s + count : ℕ) : ℚ) / (n_pop : ℚ) then some b2
    else cutoffSpecAmended n_pop rate ((b2, c2) :: t) (s + count)

/-! Concrete populations used by counterexamples and witnesses.  Each is
built by reifying explicit individuals into a fresh population, exactly the
code path `populate` takes. -/

/-- Two members with fitness 1 (`[231]`) and 0 (`[0]`), `n_pop = 2`. -/
def popCE1 : Population :=
  (reify (reify (Population.init 2 0 3) (mk_indiv 0 [231])).1 (mk_indiv 0 [0])).1

/-- Three members with fitness 1 (`[231]`), 116/231 ≈ 0.502 (`[116]`) and 0
(`[0]`), `n_pop = 3`; the rounded histogram is
`[(1, 1), (251/500, 1), (0, 1)]`. -/
def popCE4 : Population :=
  (reify (reify (reify (Population.init 3 0 3) (mk_indiv 0 [231])).1
      (mk_indiv 0 [116])).1 (mk_indiv 0 [0])).1

/-- Two members `[1, 2, 3]` and `[2, 3, 99]`, `n_pop = 11`; mutating member
`[1, 2, 3]` at position 0 into value 99 produces the already-present
candidate `[2, 3, 99]`, so reification fails and no eviction happens. -/
def popBug : Population :=
  (reify (reify (Population.init 11 0 3) (mk_indiv 0 [1, 2, 3])).1
      (mk_indiv 0 [2, 3, 99])).1

/-- The store member of `popBug` at key `[1, 2, 3]` (list position 0), as
`_boost_diversity` would receive it from `_uniq_dht.values()`. -/
def bugSelf : Individual := (popBug.uniq_dht.getD 0 default).2

/-- The store member of `popBug` at key `[2, 3, 99]` (list position 1). -/
def bugMate : Individual := (popBug.uniq_dht.getD 1 default).2

/-- Two members with fitness 1 and 0 but `n_pop = 3`, so one breeding
attempt is made. -/
def popW8 : Population :=
  (reify (reify (Population.init 3 0 3) (mk_indiv 0 [231])).1 (mk_indiv 0 [0])).1

/-- A constant diversity oracle (never consulted in the witness scenario). -/
def rngB0 : ℕ → BoostRng := fun _ => ⟨0, 0, 0⟩

/-- A constant sampling oracle choosing positions 0 and 1. -/
def rngS01 : ℕ → ℕ × ℕ := fun _ => (0, 1)

/-! Theorems. -/

instance : IsTotal ℚ (fun a b => b ≤ a) := ⟨fun a b => le_total b a⟩

instance : IsTrans ℚ (fun a b => b ≤ a) := ⟨fun _ _ _ hab hbc => le_trans hbc hab⟩

/-- Helper: the descending bin list underlying `get_part_hist`. -/
theorem get_part_hist_fst (pop : Population) :
    (get_part_hist pop).map Prod.fst =
      (pop.uniq_dht.map
          (fun e => pyRound pop.hist_granularity (fitQ e.2))).dedup.insertionSort
        (fun a b => b ≤ a) := by
  unfold get_part_hist
  rw [List.map_map]
  exact List.map_id _

/-- Helper: sorting the deduplicated bins descending yields a strictly
descending list. -/
theorem sorted_dedup_desc (l : List ℚ) :
    (l.dedup.insertionSort (fun a b => b ≤ a)).Pairwise (fun a b => b < a) := by
  have hs := List.sorted_insertionSort (fun a b : ℚ => b ≤ a) l.dedup
  have hn : (l.dedup.insertionSort (fun a b => b ≤ a)).Nodup :=
    (List.perm_insertionSort (fun a b : ℚ => b ≤ a) l.dedup).nodup_iff.mpr
      l.nodup_dedup
  exact (hs.and hn).imp (fun h => lt_of_le_of_ne h.1 (Ne.symm h.2))

/-- Helper: the bins of `get_part_hist` are strictly descending. -/
theorem get_part_hist_bins_sorted (pop : Population) :
    ((get_part_hist pop).map Prod.fst).Pairwise (fun a b => b < a) := by
  rw [get_part_hist_fst]
  exact sorted_dedup_desc _

/-- Helper: a non-empty store yields a non-empty histogram. -/
theorem get_part_hist_ne_nil (pop : Population) (h : pop.uniq_dht ≠ []) :
    get_part_hist pop ≠ [] := by
  intro hnil
  apply h
  have hfst := congrArg (List.map Prod.fst) hnil
  rw [get_part_hist_fst] at hfst
  simp only [List.map_nil] at hfst
  have hperm := List.perm_insertionSort (fun a b : ℚ => b ≤ a)
    (pop.uniq_dht.map (fun e => pyRound pop.hist_granularity (fitQ e.2))).dedup
  rw [hfst] at hperm
  have hd := hperm.symm.eq_nil
  rw [List.dedup_eq_nil, List.map_eq_nil_iff] at hd
  exact hd

/-- Helper: with the break flag still down, the cutoff loop computes the
amended successor-bin value. -/
theorem cutoffGo_eq_amended (n : ℕ) (rate : ℚ) (hist : List (ℚ × ℕ)) :
    ∀ (s : ℕ) (last : Option ℚ), hist ≠ [] →
      cutoffGo n rate hist s false last = cutoffSpecAmended n rate hist s := by
  induction hist with
  | nil => intro s last h; exact absurd rfl h
  | cons hd rest ih =>
    intro s last _
    obtain ⟨bin, count⟩ := hd
    rw [cutoffGo]
    simp only [Bool.false_eq_true, if_false]
    cases rest with
    | nil =>
      rw [cutoffGo, cutoffSpecAmended]
    | cons hd2 t =>
      obtain ⟨b2, c2⟩ := hd2
      rw [cutoffSpecAmended]
      by_cases hb : rate ≤ ((s + count : ℕ) : ℚ) / (n : ℚ)
      · rw [decide_eq_true hb, if_pos hb, cutoffGo]
        simp
      · rw [decide_eq_false hb, if_neg hb]
        exact ih (s + count) (some bin) (List.cons_ne_nil _ _)

/-- Helper: any value the amended cutoff returns is one of the bins. -/
theorem cutoffSpecAmended_mem (n : ℕ) (rate : ℚ) (hist : List (ℚ × ℕ)) :
    ∀ (s : ℕ) (q : ℚ), cutoffSpecAmended n rate hist s = some q →
      q ∈ hist.map Prod.fst := by
  induction hist with
  | nil => intro s q h; simp [cutoffSpecAmended] at h
  | cons hd rest ih =>
    intro s q h
    obtain ⟨bin, count⟩ := hd
    cases rest with
    | nil =>
      rw [cutoffSpecAmended] at h
      simp at h
      simp [h]
    | cons hd2 t =>
      obtain ⟨b2, c2⟩ := hd2
      rw [cutoffSpecAmended] at h
      by_cases hb : rate ≤ ((s + count : ℕ) : ℚ) / (n : ℚ)
      · rw [if_pos hb] at h
        simp at h
        simp [h]
      · rw [if_neg hb] at h
        have hq := ih (s + count) q h
        simp only [List.map_cons, List.mem_cons] at hq ⊢
        exact Or.inr hq

/-- Helper: over a strictly descending histogram the amended cutoff is
antitone in the selection rate. -/
theorem cutoffSpecAmended_anti (n : ℕ) (r1 r2 : ℚ) (hr : r2 ≤ r1)
    (hist : List (ℚ × ℕ)) :
    ∀ (s : ℕ) (q1 q2 : ℚ), (hist.map Prod.fst).Pairwise (fun a b => b < a) →
      cutoffSpecAmended n r1 hist s = some q1 →
      cutoffSpecAmended n r2 hist s = some q2 → q1 ≤ q2 := by
  induction hist with
  | nil => intro s q1 q2 _ h1 _; simp [cutoffSpecAmended] at h1
  | cons hd rest ih =>
    intro s q1 q2 hpair h1 h2
    obtain ⟨bin, count⟩ := hd
    cases rest with
    | nil =>
      rw [cutoffSpecAmended] at h1 h2
      simp at h1 h2
      rw [← h1, ← h2]
    | cons hd2 t =>
      obtain ⟨b2, c2⟩ := hd2
      simp only [List.map_cons] at hpair
      have htail := (List.pairwise_cons.mp hpair).2
      rw [cutoffSpecAmended] at h1 h2
      by_cases hb1 : r1 ≤ ((s + count : ℕ) : ℚ) / (n : ℚ)
      · have hb2 : r2 ≤ ((s + count : ℕ) : ℚ) / (n : ℚ) := le_trans hr hb1
        rw [if_pos hb1] at h1
        rw [if_pos hb2] at h2
        simp at h1 h2
        rw [← h1, ← h2]
      · rw [if_neg hb1] at h1
        by_cases hb2 : r2 ≤ ((s + count : ℕ) : ℚ) / (n : ℚ)
        · rw [if_pos hb2] at h2
          simp at h2
          have hmem : q1 ∈ ((b2, c2) :: t).map Prod.fst :=
            cutoffSpecAmended_mem n r1 _ _ _ h1
          rw [← h2]
          simp only [List.map_cons, List.mem_cons] at hmem
          rcases hmem with he | ht
          · exact le_of_eq he
          · exact le_of_lt ((List.pairwise_cons.mp htail).1 q1 ht)
        · rw [if_neg hb2] at h2
          exact ih (s + count) q1 q2 (by simpa using htail) h1 h2

/-- Helper: the sum of histogram counts over the sorted deduplicated bins of
a list equals the length of the list. -/
theorem sum_counts_over_sorted_dedup (l : List ℚ) :
    (((l.dedup.insertionSort (fun a b => b ≤ a)).map
        (fun b => (b, l.count b))).map Prod.snd).sum = l.length := by
  rw [List.map_map]
  show ((l.dedup.insertionSort (fun a b => b ≤ a)).map
    (fun b => l.count b)).sum = l.length
  rw [((List.perm_insertionSort (fun a b : ℚ => b ≤ a) l.dedup).map
    (fun b => l.count b)).sum_eq]
  exact List.sum_map_count_dedup_eq_length l

/-- C1 (amended): for a non-empty population, `get_fitness_cutoff` returns
the bin immediately following — in the descending histogram — the first bin
at which the cumulative count divided by `n_pop` reaches or exceeds the
selection rate, or the last bin when that first bin is the last one or the
threshold is never reached.  (The claim said it returns the reaching bin
itself; the `break_next` flag delays the break by one iteration, so the
loop variable has already moved one bin further.) -/
theorem get_fitness_cutoff_successor_bin (pop : Population) (rate : ℚ)
    (h : pop.uniq_dht ≠ []) :
    get_fitness_cutoff pop rate =
      cutoffSpecAmended pop.n_pop rate (get_part_hist pop) 0 :=
  cutoffGo_eq_amended pop.n_pop rate (get_part_hist pop) 0 none
    (get_part_hist_ne_nil pop h)

/-- Counterexample to C1 as stated: in `popCE1` (histogram
`[(1, 1), (0, 1)]`, `n_pop = 2`) at selection rate 1/2, the cumulative
fraction already reaches 1/2 at bin 1, yet the code returns bin 0. -/
theorem get_fitness_cutoff_claimed_bin_ce :
    cutoffSpecClaimed popCE1.n_pop (1/2) (get_part_hist popCE1) 0 = some 1 ∧
    get_fitness_cutoff popCE1 (1/2) = some 0 ∧
    get_fitness_cutoff popCE1 (1/2) ≠
      cutoffSpecClaimed popCE1.n_pop (1/2) (get_part_hist popCE1) 0 := by
  refine ⟨?_, ?_, ?_⟩ <;> with_unfolding_all decide

/-- Witness for C1 (amended) at a concrete input. -/
theorem get_fitness_cutoff_successor_bin_witness :
    get_fitness_cutoff popCE1 (1/2) =
      cutoffSpecAmended popCE1.n_pop (1/2) (get_part_hist popCE1) 0 :=
  get_fitness_cutoff_successor_bin popCE1 (1/2) (by with_unfolding_all decide)

/-- C4 (amended): for a fixed non-empty population the fitness cutoff is
*antitone* in the selection rate — when `r1 ≥ r2`,
`get_fitness_cutoff(r1) ≤ get_fitness_cutoff(r2)` (a larger rate walks
deeper into the descending histogram).  The claim stated the opposite
direction. -/
theorem get_fitness_cutoff_anti_monotone (pop : Population)
    (r1 r2 q1 q2 : ℚ) (hne : pop.uniq_dht ≠ []) (hr : r2 ≤ r1)
    (h1 : get_fitness_cutoff pop r1 = some q1)
    (h2 : get_fitness_cutoff pop r2 = some q2) : q1 ≤ q2 := by
  rw [get_fitness_cutoff,
    cutoffGo_eq_amended _ _ _ _ _ (get_part_hist_ne_nil pop hne)] at h1 h2
  exact cutoffSpecAmended_anti pop.n_pop r1 r2 hr (get_part_hist pop) 0 q1 q2
    (get_part_hist_bins_sorted pop) h1 h2

/-- Counterexample to C4 as stated: in `popCE4` (histogram
`[(1, 1), (251/500, 1), (0, 1)]`, `n_pop = 3`) the rates `r1 = 2/3 ≥ r2 = 1/3`
give cutoffs `0 < 251/500`, refuting `cutoff(r1) ≥ cutoff(r2)`. -/
theorem get_fitness_cutoff_monotone_ce :
    get_fitness_cutoff popCE4 (2/3) = some 0 ∧
    get_fitness_cutoff popCE4 (1/3) = some (251/500) ∧
    ¬ ((0 : ℚ) ≥ 251/500) := by
  refine ⟨?_, ?_, ?_⟩
  · with_unfolding_all decide
  · with_unfolding_all decide
  · norm_num

/-- Witness for C4 (amended) at a concrete input. -/
theorem get_fitness_cutoff_anti_monotone_witness :
    get_fitness_cutoff popCE4 (2/3) = some 0 ∧
    get_fitness_cutoff popCE4 (1/3) = some (251/500) ∧
    (0 : ℚ) ≤ 251/500 :=
  ⟨by with_unfolding_all decide, by with_unfolding_all decide,
   get_fitness_cutoff_anti_monotone popCE4 (2/3) (1/3) 0 (251/500)
     (by with_unfolding_all decide) (by norm_num)
     (by with_unfolding_all decide) (by with_unfolding_all decide)⟩

/-- C9: `get_part_hist` conserves the store — the counts sum to the exact
store size — its `(bin, count)` pairs are sorted strictly descending by bin,
every bin is the rounded fitness of some member, and the rounded fitness of
every member occurs as a bin. -/
theorem get_part_hist_spec (pop : Population) :
    ((get_part_hist pop).map Prod.snd).sum = pop.uniq_dht.length ∧
    (get_part_hist pop).Pairwise (fun p q => q.1 < p.1) ∧
    (∀ p ∈ get_part_hist pop,
      p.1 ∈ pop.uniq_dht.map (fun e => pyRound pop.hist_granularity (fitQ e.2))) ∧
    (∀ e ∈ pop.uniq_dht,
      pyRound pop.hist_granularity (fitQ e.2) ∈ (get_part_hist pop).map Prod.fst) := by
  refine ⟨?_, ?_, ?_, ?_⟩
  · rw [show get_part_hist pop =
        ((pop.uniq_dht.map (fun e => pyRound pop.hist_granularity (fitQ e.2))).dedup.insertionSort
          (fun a b => b ≤ a)).map
          (fun b => (b, (pop.uniq_dht.map
            (fun e => pyRound pop.hist_granularity (fitQ e.2))).count b)) from rfl]
    rw [sum_counts_over_sorted_dedup]
    exact List.length_map _ _
  · have hb := get_part_hist_bins_sorted pop
    rw [List.pairwise_map] at hb
    exact hb
  · intro p hp
    simp only [get_part_hist, List.mem_map, List.mem_insertionSort] at hp
    obtain ⟨b, hb, rfl⟩ := hp
    exact List.mem_dedup.mp hb
  · intro e he
    rw [get_part_hist_fst]
    simp only [List.mem_insertionSort, List.mem_dedup, List.mem_map]
    exact ⟨e, he, rfl⟩

/-- Witness for C9 at a concrete input: in `popCE1` the counts add up to the
store size (2) and the rounded fitness 1 of member `[231]` is a bin. -/
theorem get_part_hist_spec_witness :
    ((get_part_hist popCE1).map Prod.snd).sum = popCE1.uniq_dht.length ∧
    (1 : ℚ) ∈ (get_part_hist popCE1).map Prod.fst := by
  obtain ⟨hsum, _, _, hmem⟩ := get_part_hist_spec popCE1
  refine ⟨hsum, ?_⟩
  have h1 := hmem (popCE1.uniq_dht.getD 0 default) (by with_unfolding_all decide)
  have he : pyRound popCE1.hist_granularity
      (fitQ (popCE1.uniq_dht.getD 0 default).2) = 1 := by
    with_unfolding_all decide
  rw [← he]
  exact h1

/-- C3: once a fingerprint has gone through `reify`, a second `reify` call
with an individual carrying the same fingerprint returns `False`, leaves the
population (exact store and filter) exactly unchanged, and leaves the
rejected candidate untouched — in particular its fitness is not computed. -/
theorem reify_idempotent (pop : Population) (i j : Individual)
    (h : j.key = i.key) :
    reify (reify pop i).1 j = ((reify pop i).1, false, j) := by
  by_cases hi : i.key ∈ pop.bf <;>
    simp [reify, hi, h]

/-- Witness for C3 at a concrete input: re-reifying the feature set
`[1, 2]` (under a different generation tag) is rejected without any change. -/
theorem reify_idempotent_witness :
    reify (reify (Population.init 11 0 3) (mk_indiv 0 [1, 2])).1 (mk_indiv 5 [1, 2]) =
      ((reify (Population.init 11 0 3) (mk_indiv 0 [1, 2])).1, false, mk_indiv 5 [1, 2]) :=
  reify_idempotent (Population.init 11 0 3) (mk_indiv 0 [1, 2]) (mk_indiv 5 [1, 2]) rfl

/-- C5: `calc_fitness` sets `fitness = 1 - |sum(feature_set) - target| / target`
(target = 231): the value is exactly 1 when the sum hits the target, never
exceeds 1, and is negative (not clamped) once the sum is farther than
`target` away from the target. -/
theorem calc_fitness_spec (i : Individual) :
    ∃ f : ℚ, (calc_fitness i).fitness = some f ∧
      f = 1 - ((|i.feature_set.sum - 231| : ℤ) : ℚ) / target ∧
      f ≤ 1 ∧
      (i.feature_set.sum = 231 → f = 1) ∧
      (231 < |i.feature_set.sum - 231| → f < 0) := by
  refine ⟨1 - ((|i.feature_set.sum - 231| : ℤ) : ℚ) / target, rfl, rfl, ?_, ?_, ?_⟩
  · have h0 : (0 : ℚ) ≤ ((|i.feature_set.sum - 231| : ℤ) : ℚ) :=
      Int.cast_nonneg.mpr (abs_nonneg _)
    have h1 : (0 : ℚ) ≤ ((|i.feature_set.sum - 231| : ℤ) : ℚ) / target :=
      div_nonneg h0 (by norm_num [target])
    linarith
  · intro hs
    simp [hs, target]
  · intro hfar
    have h1 : (231 : ℚ) < ((|i.feature_set.sum - 231| : ℤ) : ℚ) := by
      exact_mod_cast hfar
    have h2 : (1 : ℚ) < ((|i.feature_set.sum - 231| : ℤ) : ℚ) / target := by
      rw [target, lt_div_iff₀ (by norm_num : (0 : ℚ) < 231)]
      linarith
    linarith

/-- Witness for C5 at concrete inputs: the feature set `[231]` reaches
fitness exactly 1, and the feature set `[693]` (sum 462 beyond the target)
gets a negative fitness. -/
theorem calc_fitness_spec_witness :
    (∃ f : ℚ, (calc_fitness (mk_indiv 0 [231])).fitness = some f ∧ f = 1) ∧
    (∃ f : ℚ, (calc_fitness (mk_indiv 0 [693])).fitness = some f ∧ f < 0) := by
  constructor
  · obtain ⟨f, hf, _, _, hone, _⟩ := calc_fitness_spec (mk_indiv 0 [231])
    exact ⟨f, hf, hone (by decide)⟩
  · obtain ⟨f, hf, _, _, _, hneg⟩ := calc_fitness_spec (mk_indiv 0 [693])
    exact ⟨f, hf, hneg (by decide)⟩

/-- C6: `test_termination` returns `True` exactly when the mean-squared
fitness error — the sum over histogram entries of `count * (1 - bin)^2`,
divided by `n_pop` — is at most `term_limit`.  (The positivity hypothesis
mirrors the Python division by `float(n_pop)`.) -/
theorem test_termination_iff_mse (pop : Population) (g : ℤ)
    (hn : 0 < pop.n_pop) :
    test_termination pop g = true ↔
      ((get_part_hist pop).map
          (fun bc => (bc.2 : ℚ) * (1 - bc.1) ^ 2)).sum / (pop.n_pop : ℚ) ≤
        pop.term_limit := by
  simp [test_termination]

/-- Witness for C6 at a concrete input: a fresh empty population with
`n_pop = 11` and `term_limit = 0` has mean-squared error 0 and terminates. -/
theorem test_termination_iff_mse_witness :
    test_termination (Population.init 11 0 3) 0 = true := by
  rw [test_termination_iff_mse (Population.init 11 0 3) 0 (by norm_num [Population.init])]
  with_unfolding_all decide

/-- C10: on a population whose exact store is empty, the histogram loop body
never runs, the loop variable `bin` is never bound, and `get_fitness_cutoff`
produces no value at any selection rate (in Python, `return bin` raises
`NameError`; here the unbound loop variable is the `none` outcome). -/
theorem get_fitness_cutoff_empty_none (pop : Population)
    (h : pop.uniq_dht = []) (rate : ℚ) :
    get_fitness_cutoff pop rate = none := by
  simp [get_fitness_cutoff, get_part_hist, h, List.insertionSort, cutoffGo]

/-- Witness for C10 at a concrete input: a fresh population returns no
cutoff at selection rate 1/2. -/
theorem get_fitness_cutoff_empty_none_witness :
    get_fitness_cutoff (Population.init 11 0 3) (1/2) = none :=
  get_fitness_cutoff_empty_none (Population.init 11 0 3) rfl (1/2)

/-- C2 (code bug): `mutate` corrupts the caller in place.  In `popBug`,
mutating the member with key `[1, 2, 3]` at position 0 into 99 produces the
already-present candidate `[2, 3, 99]`, so reification fails and the caller
stays in the store — but because `mutated_feature_set = self._feature_set`
aliases rather than copies, the stored feature set has become `[99, 2, 3]`
(not even sorted) while its key is still the fingerprint of `[1, 2, 3]`.
The claim that members never have their feature set modified in place, and
that every key equals the fingerprint of the current feature set, fails. -/
theorem mutate_aliasing_bug :
    bugSelf.feature_set = [1, 2, 3] ∧
    bugSelf.key = get_unique_key [1, 2, 3] ∧
    ((mutate popBug bugSelf 1 0 99).2).feature_set = [99, 2, 3] ∧
    ((mutate popBug bugSelf 1 0 99).1.uniq_dht.getD 0 default).2.key = [1, 2, 3] ∧
    ((mutate popBug bugSelf 1 0 99).1.uniq_dht.getD 0 default).2.feature_set =
      [99, 2, 3] ∧
    get_unique_key [99, 2, 3] ≠ [1, 2, 3] := by
  refine ⟨?_, ?_, ?_, ?_, ?_, ?_⟩ <;> with_unfolding_all decide

/-- Helper: inserting a key absent from an association list appends. -/
theorem assocInsert_append (l : List (Key × Individual)) (k : Key)
    (v : Individual) (h : ∀ e ∈ l, e.1 ≠ k) :
    assocInsert l k v = l ++ [(k, v)] := by
  unfold assocInsert
  rw [if_neg]
  intro hany
  rw [List.any_eq_true] at hany
  obtain ⟨e, he, hek⟩ := hany
  exact h e he (by simpa using hek)

/-- Helper: when the store keys are all recorded in the filter, `reify`
either leaves the store untouched (rejection) or appends exactly the
candidate, fitness computed, keyed by its fingerprint. -/
theorem reify_superset (pop : Population) (c : Individual)
    (hwf : ∀ e ∈ pop.uniq_dht, e.1 ∈ pop.bf) :
    (reify pop c).1.uniq_dht = pop.uniq_dht ∨
    (reify pop c).1.uniq_dht = pop.uniq_dht ++ [(c.key, calc_fitness c)] := by
  unfold reify
  by_cases hc : c.key ∈ pop.bf
  · rw [if_pos hc]
    exact Or.inl rfl
  · rw [if_neg hc]
    right
    exact assocInsert_append _ _ _ (fun e he hek => hc (hek ▸ hwf e he))

/-- C7: `breed` builds the child feature set as the sorted concatenation of
the tail of the caller from index `⌊n/2⌋` onward with the first `⌊n/2⌋`
elements of the mate, reifies it (so the store either gains exactly that
child or, on a duplicate, stays unchanged), and evicts neither parent:
every pre-existing store entry survives. -/
theorem breed_spec (pop : Population) (self mate : Individual) (gen : ℤ)
    (hlen : mate.feature_set.length = self.feature_set.length)
    (hwf : ∀ e ∈ pop.uniq_dht, e.1 ∈ pop.bf) :
    ((breed pop self gen mate).uniq_dht = pop.uniq_dht ∨
      (breed pop self gen mate).uniq_dht = pop.uniq_dht ++
        [(get_unique_key (sortAsc
            (self.feature_set.drop (self.feature_set.length / 2) ++
             mate.feature_set.take (self.feature_set.length / 2))),
          calc_fitness (mk_indiv gen (sortAsc
            (self.feature_set.drop (self.feature_set.length / 2) ++
             mate.feature_set.take (self.feature_set.length / 2)))))]) ∧
    (∀ e ∈ pop.uniq_dht, e ∈ (breed pop self gen mate).uniq_dht) := by
  have hs := reify_superset pop
    (mk_indiv gen (sortAsc
      (self.feature_set.drop (self.feature_set.length / 2) ++
       mate.feature_set.take (self.feature_set.length / 2)))) hwf
  have hb : (breed pop self gen mate).uniq_dht =
      (reify pop (mk_indiv gen (sortAsc
        (self.feature_set.drop (self.feature_set.length / 2) ++
         mate.feature_set.take (self.feature_set.length / 2))))).1.uniq_dht := rfl
  constructor
  · rw [hb]
    exact hs
  · intro e he
    rw [hb]
    rcases hs with h | h <;> rw [h]
    · exact he
    · exact List.mem_append_left _ he

/-- Witness for C7 at a concrete input: breeding the two members of
`popBug` keeps the first parent entry in the store. -/
theorem breed_spec_witness :
    (popBug.uniq_dht.getD 0 default) ∈ (breed popBug bugSelf 1 bugMate).uniq_dht := by
  obtain ⟨_, hmem⟩ := breed_spec popBug bugSelf bugMate 1
    (by with_unfolding_all decide) (by with_unfolding_all decide)
  exact hmem _ (by with_unfolding_all decide)

/-- Helper: `reify` never changes the configured population size. -/
theorem reify_n_pop (pop : Population) (c : Individual) :
    (reify pop c).1.n_pop = pop.n_pop := by
  unfold reify
  split <;> rfl

/-- Helper: `evict` never changes the configured population size. -/
theorem evict_n_pop (pop : Population) (i : Individual) :
    (evict pop i).n_pop = pop.n_pop := rfl

/-- Helper: `mutate` never changes the configured population size. -/
theorem mutate_n_pop (pop : Population) (self : Individual) (gen : ℤ)
    (pos : ℕ) (v : ℤ) : (mutate pop self gen pos v).1.n_pop = pop.n_pop := by
  unfold mutate
  dsimp only
  split
  · rw [evict_n_pop, reify_n_pop]
  · rw [reify_n_pop]

/-- Helper: `_boost_diversity` never changes the configured population
size. -/
theorem boost_n_pop (pop : Population) (gen : ℤ) (i : Individual)
    (mr : ℚ) (r : BoostRng) :
    (boost_diversity pop gen i mr r).n_pop = pop.n_pop := by
  unfold boost_diversity
  split
  · exact mutate_n_pop pop i gen r.pos r.newVal
  · exact evict_n_pop pop i

/-- Helper: the diversity fold never changes the configured population
size. -/
theorem foldl_boost_n_pop (gen : ℤ) (mr : ℚ) (rng : ℕ → BoostRng)
    (l : List (ℕ × Individual)) :
    ∀ pop : Population,
      (l.foldl (fun p ki => boost_diversity p gen ki.2 mr (rng ki.1)) pop).n_pop =
        pop.n_pop := by
  induction l with
  | nil => intro pop; rfl
  | cons hd t ih =>
    intro pop
    rw [List.foldl_cons, ih, boost_n_pop]

/-- Helper: `_select_parents` never changes the configured population
size. -/
theorem select_parents_n_pop (pop : Population) (gen : ℤ) (c mr : ℚ)
    (rng : ℕ → BoostRng) :
    (select_parents pop gen c mr rng).1.n_pop = pop.n_pop :=
  foldl_boost_n_pop gen mr rng _ pop

/-- C8: in `next_generation` the parent pool is the *entire* remaining
store after the diversity pass (fit and surviving-unfit members alike, not
just the fit subset); exactly `n_pop - len(pool)` breeding attempts are
made; each attempt pairs two distinct positions of that pool
(`sample(parents, 2)` semantics, given by the `hvalid` oracle contract);
when the pool already meets or exceeds `n_pop` no breeding occurs; and the
resulting population is the breed-fold of exactly those pairs. -/
theorem next_generation_spec (pop : Population) (gen : ℤ) (cutoff mrate : ℚ)
    (rngB : ℕ → BoostRng) (rngS : ℕ → ℕ × ℕ)
    (hvalid : ∀ k < pop.n_pop - (select_parents pop gen cutoff mrate rngB).2.length,
      (rngS k).1 ≠ (rngS k).2 ∧
      (rngS k).1 < (select_parents pop gen cutoff mrate rngB).2.length ∧
      (rngS k).2 < (select_parents pop gen cutoff mrate rngB).2.length) :
    (select_parents pop gen cutoff mrate rngB).2 =
      (select_parents pop gen cutoff mrate rngB).1.uniq_dht.map Prod.snd ∧
    (breeding_pairs (select_parents pop gen cutoff mrate rngB).1.n_pop
        (select_parents pop gen cutoff mrate rngB).2 rngS).length =
      pop.n_pop - (select_parents pop gen cutoff mrate rngB).2.length ∧
    (∀ pr ∈ breeding_pairs (select_parents pop gen cutoff mrate rngB).1.n_pop
        (select_parents pop gen cutoff mrate rngB).2 rngS,
      ∃ i j, i ≠ j ∧
        i < (select_parents pop gen cutoff mrate rngB).2.length ∧
        j < (select_parents pop gen cutoff mrate rngB).2.length ∧
        pr = ((select_parents pop gen cutoff mrate rngB).2.getD i default,
              (select_parents pop gen cutoff mrate rngB).2.getD j default)) ∧
    (pop.n_pop ≤ (select_parents pop gen cutoff mrate rngB).2.length →
      next_generation pop gen cutoff mrate rngB rngS =
        (select_parents pop gen cutoff mrate rngB).1) ∧
    next_generation pop gen cutoff mrate rngB rngS =
      (breeding_pairs (select_parents pop gen cutoff mrate rngB).1.n_pop
          (select_parents pop gen cutoff mrate rngB).2 rngS).foldl
        (fun p fm => breed p fm.1 gen fm.2)
        (select_parents pop gen cutoff mrate rngB).1 := by
  refine ⟨rfl, ?_, ?_, ?_, rfl⟩
  · rw [breeding_pairs, List.length_map, List.length_range, select_parents_n_pop]
  · intro pr hpr
    rw [breeding_pairs, List.mem_map] at hpr
    obtain ⟨k, hk, rfl⟩ := hpr
    rw [List.mem_range, select_parents_n_pop] at hk
    obtain ⟨hne, h1, h2⟩ := hvalid k hk
    exact ⟨(rngS k).1, (rngS k).2, hne, h1, h2, rfl⟩
  · intro hle
    have h0 : (select_parents pop gen cutoff mrate rngB).1.n_pop -
        (select_parents pop gen cutoff mrate rngB).2.length = 0 := by
      rw [select_parents_n_pop]
      exact Nat.sub_eq_zero_of_le hle
    have hnil : breeding_pairs (select_parents pop gen cutoff mrate rngB).1.n_pop
        (select_parents pop gen cutoff mrate rngB).2 rngS = [] := by
      rw [breeding_pairs, h0]
      rfl
    show (breeding_pairs (select_parents pop gen cutoff mrate rngB).1.n_pop
        (select_parents pop gen cutoff mrate rngB).2 rngS).foldl
      (fun p fm => breed p fm.1 gen fm.2)
      (select_parents pop gen cutoff mrate rngB).1 =
      (select_parents pop gen cutoff mrate rngB).1
    rw [hnil]
    rfl

/-- Witness for C8 at a concrete input: in `popW8` (two members, `n_pop = 3`,
cutoff −1 so nobody is unfit) exactly one breeding attempt is made. -/
theorem next_generation_spec_witness :
    (breeding_pairs (select_parents popW8 1 (-1) 0 rngB0).1.n_pop
        (select_parents popW8 1 (-1) 0 rngB0).2 rngS01).length =
      popW8.n_pop - (select_parents popW8 1 (-1) 0 rngB0).2.length := by
  have hv : ∀ k < popW8.n_pop - (select_parents popW8 1 (-1) 0 rngB0).2.length,
      (rngS01 k).1 ≠ (rngS01 k).2 ∧
      (rngS01 k).1 < (select_parents popW8 1 (-1) 0 rngB0).2.length ∧
      (rngS01 k).2 < (select_parents popW8 1 (-1) 0 rngB0).2.length := by
    intro k _
    refine ⟨?_, ?_, ?_⟩
    · show (0 : ℕ) ≠ 1
      decide
    · show (0 : ℕ) < (select_parents popW8 1 (-1) 0 rngB0).2.length
      with_unfolding_all decide
    · show (1 : ℕ) < (select_parents popW8 1 (-1) 0 rngB0).2.length
      with_unfolding_all decide
  obtain ⟨_, hlen, _, _, _⟩ := next_generation_spec popW8 1 (-1) 0 rngB0 rngS01 hv
  exact hlen

end Exelixi
